import Mathlib

/-!
Verification of the gmail_unsubscriber extension core against its
natural-language specification.

The development shallowly embeds the relevant code of
`src/utils/parser.js`, `src/utils/gmail-api.js` and
`src/background/background.js` as executable Lean definitions.

Modelling conventions, fixed once here:
* JavaScript strings are `String`/`List Char`; `toLowerCase` is mapped to
  ASCII `Char.toLower` and `trim` to dropping `Char.isWhitespace` from both
  ends (header values delivered by the Gmail JSON API are single-line
  ASCII-compatible values, so the JS Unicode extras never fire on them;
  in particular the regex dot is modelled as matching any character).
* `null`/`undefined` results are `Option.none`; where the code branches on
  JS truthiness of a string the empty-string case is modelled explicitly.
* Message and page identifiers are opaque; they are modelled as `Nat`.
* Network effects are made explicit: a paginated endpoint is a list of the
  responses the provider would return, in order, and a retried operation is
  the function from attempt index to that attempt's outcome.  Loops that
  depend on the provider terminating are `Option`-valued and return `none`
  when the supplied response list is exhausted before the loop stops.
* `await sleep(...)` calls are counted (or their durations collected)
  instead of waiting.
-/

/-! ## Character and string utilities shared by the embedded code -/

/-- ASCII model of `String.prototype.toLowerCase`. -/
def lowerL (l : List Char) : List Char := l.map Char.toLower

/-- `toLowerCase` on whole strings, used for header-name comparison. -/
def lowerS (s : String) : String := String.mk (lowerL s.toList)

/-- Drop the maximal trailing whitespace run. -/
def stripTrailWs (l : List Char) : List Char :=
  (l.reverse.dropWhile Char.isWhitespace).reverse

/-- Model of `String.prototype.trim`: drop whitespace from both ends. -/
def trimL (l : List Char) : List Char :=
  stripTrailWs (l.dropWhile Char.isWhitespace)

/-- Is `pre` a prefix of `l`?  Used by the regex models below. -/
def prefixOfChars : List Char → List Char → Bool
  | [], _ => true
  | _ :: _, [] => false
  | a :: as, b :: bs => a = b && prefixOfChars as bs

/-- Does `needle` occur as a contiguous substring of `hay`?  Model of
`String.prototype.includes` (used by `retryWithBackoff` on error messages). -/
def subOccurs (needle : List Char) : List Char → Bool
  | [] => prefixOfChars needle []
  | c :: rest => prefixOfChars needle (c :: rest) || subOccurs needle rest

/-- `hay.includes(needle)` on strings. -/
def strIncludes (hay needle : String) : Bool :=
  subOccurs needle.toList hay.toList

/-- A double or single quote character (the class `["']` of
`extractName`'s strip regex). -/
def isQuoteChar (c : Char) : Bool := c = '"' || c = Char.ofNat 39

/-- Model of `.replace(/^["']|["']$/g, '')`: remove one leading and one
trailing quote character when present (on the original string, so a
single lone quote is removed once). -/
def stripQuotes (l : List Char) : List Char :=
  let l1 := match l with
    | [] => []
    | c :: rest => if isQuoteChar c then rest else l
  match l1.reverse with
  | [] => []
  | c :: rest => if isQuoteChar c then rest.reverse else l1

/-! ## Regex models for `parser.js` / `background.js`

`fromString.match(/<(.+?)>/)`: the engine scans left to right for the
first position where `<` matches and the lazy `.+?` can reach a `>`
with at least one captured character; the lazy group then stops at the
first `>` lying at least two characters after the `<`. -/

/-- Given the characters after a candidate `<`, the content captured by
the lazy `(.+?)>`: the shortest non-empty prefix ended by a `>`.
`none` when no `>` follows the first content character. -/
def angleContentAfter : List Char → Option (List Char)
  | [] => none
  | c :: rest =>
      if rest.contains '>' then some (c :: rest.takeWhile (· ≠ '>')) else none

/-- Leftmost match of `/<(.+?)>/` over a character list: the captured
group content, or `none` when the regex does not match. -/
def jsMatchAngle : List Char → Option (List Char)
  | [] => none
  | c :: rest =>
      if c = '<' then
        match angleContentAfter rest with
        | some content => some content
        | none => jsMatchAngle rest
      else jsMatchAngle rest

/-- Does `rem` begin with zero or more whitespace characters followed by
`<`?  This is what the tail `\s*<` of `extractName`'s regex accepts at
the point where the lazy group stops. -/
def wsThenLt : List Char → Bool
  | [] => false
  | c :: rest => if c = '<' then true else if c.isWhitespace then wsThenLt rest else false

/-- The lazy group of `/^(.+?)\s*</`: grow the captured content one
character at a time from the start of the string until the remainder is
accepted by `\s*<` (`wsThenLt [] = false`, so an exhausted remainder is
a failed match). -/
def namePrefixGo : List Char → List Char → Option (List Char)
  | _, [] => none
  | acc, c :: rest =>
      if wsThenLt (c :: rest) then some acc else namePrefixGo (acc ++ [c]) rest

/-- Content captured by `fromString.match(/^(.+?)\s*</)` (at least one
character, anchored at the start). -/
def jsMatchNameContent : List Char → Option (List Char)
  | [] => none
  | c :: rest => namePrefixGo [c] rest

/-! ## `parser.js`: sender extraction -/

/-- `EmailParser.extractEmail` (`src/utils/parser.js:118`): angle-bracket
content lowercased then trimmed; otherwise, when the string contains `@`,
the whole string trimmed then lowercased; otherwise `null`. -/
def extractEmail (s : String) : Option String :=
  match jsMatchAngle s.toList with
  | some content => some (String.mk (trimL (lowerL content)))
  | none =>
      if s.toList.contains '@' then some (String.mk (lowerL (trimL s.toList)))
      else none

/-- `extractEmail` of `src/background/background.js:393`: identical except
that the angle-bracket branch omits the `.trim()`. -/
def bgExtractEmail (s : String) : Option String :=
  match jsMatchAngle s.toList with
  | some content => some (String.mk (lowerL content))
  | none =>
      if s.toList.contains '@' then some (String.mk (lowerL (trimL s.toList)))
      else none

/-- `EmailParser.extractName` (`src/utils/parser.js:138`, byte-identical in
`background.js:410`): the captured group, trimmed, then stripped of
leading/trailing quote characters. -/
def extractName (s : String) : Option String :=
  (jsMatchNameContent s.toList).map (fun c => String.mk (stripQuotes (trimL c)))

/-! ## Regex models for the `List-Unsubscribe` header -/

/-- The tail `scheme[^>]+>` of both `List-Unsubscribe` regexes, applied
to the characters after a candidate `<`: require the literal scheme,
then at least one non-`>` character, up to the terminating `>`; returns
`scheme ++ body`. -/
def schemeAngleBody (scheme cs : List Char) : Option (List Char) :=
  if prefixOfChars scheme cs then
    let rest := cs.drop scheme.length
    let body := rest.takeWhile (· ≠ '>')
    if !body.isEmpty && body.length < rest.length then some (scheme ++ body) else none
  else none

/-- Left-to-right scan for the first `<` whose following characters are
accepted by `inner` — the leftmost-match rule shared by both
`List-Unsubscribe` regexes. -/
def scanAngle (inner : List Char → Option (List Char)) : List Char → Option (List Char)
  | [] => none
  | c :: rest =>
      if c = '<' then
        match inner rest with
        | some content => some content
        | none => scanAngle inner rest
      else scanAngle inner rest

/-- After a candidate `<`: the content captured by
`(https?:\/\/[^>]+)>` — the optional `s` of `https?` simply makes the
two scheme literals admissible. -/
def httpContentAfter (cs : List Char) : Option (List Char) :=
  match schemeAngleBody "https://".toList cs with
  | some c => some c
  | none => schemeAngleBody "http://".toList cs

/-- Leftmost match of `/<(https?:\/\/[^>]+)>/`. -/
def matchHttpAngle (l : List Char) : Option (List Char) :=
  scanAngle httpContentAfter l

/-- After a candidate `<`: the group captured by `mailto:([^>]+)>`
(scheme excluded from the capture, as in the source regex). -/
def mailtoContentAfter (cs : List Char) : Option (List Char) :=
  (schemeAngleBody "mailto:".toList cs).map (List.drop "mailto:".toList.length)

/-- Leftmost match of `/<mailto:([^>]+)>/`. -/
def matchMailtoAngle (l : List Char) : Option (List Char) :=
  scanAngle mailtoContentAfter l

/-- `EmailParser.parseUnsubscribeHeader` (`src/utils/parser.js:177`):
prefer the HTTP match; else the mailto match re-prefixed with
`mailto:`; else `null`. -/
def parseUnsubscribeHeader (headerValue : String) : Option String :=
  match matchHttpAngle headerValue.toList with
  | some content => some (String.mk content)
  | none =>
      match matchMailtoAngle headerValue.toList with
      | some body => some (String.mk ("mailto:".toList ++ body))
      | none => none

/-- `extractUnsubscribeLink` of `src/background/background.js:421`: only
the HTTP regex; no mailto fallback. -/
def bgExtractUnsubscribeLink (headerValue : String) : Option String :=
  (matchHttpAngle headerValue.toList).map String.mk

/-! ## `parser.js`: message analysis -/

/-- One element of `message.payload.headers`. -/
structure MsgHeader where
  name : String
  value : String
deriving DecidableEq, Repr

/-- A message as consumed by `analyzeMessages`.  `hasPayload = false`
models both a null entry and a message without `payload` (the
`if (!message || !message.payload) continue` guard); an absent
`labelIds` array is the empty list. -/
structure GMessage where
  id : Nat
  labelIds : List String
  hasPayload : Bool
  headers : List MsgHeader
  internalDate : Nat
deriving DecidableEq, Repr

/-- `EmailParser.getHeader` (`src/utils/parser.js:229`): case-insensitive
lookup of the first header with the given name. -/
def getHeader (m : GMessage) (headerName : String) : Option String :=
  if m.hasPayload then
    (m.headers.find? (fun h => lowerS h.name = lowerS headerName)).map (fun h => h.value)
  else none

/-- `EmailParser.isNewsletterMessage` (`src/utils/parser.js:199`): true
when any of the four listed headers is present; the subsequent
`Precedence === 'bulk'` comparison is kept as in the source (it can
only run when no `Precedence` header exists, so it never fires). -/
def isNewsletterMessage (m : GMessage) : Bool :=
  (getHeader m "List-Unsubscribe").isSome ||
  (getHeader m "List-Id").isSome ||
  (getHeader m "List-Post").isSome ||
  (getHeader m "Precedence").isSome ||
  (match getHeader m "Precedence" with
   | some v => lowerS v = "bulk"
   | none => false)

/-- `EmailParser.extractUnsubscribeLink` (`src/utils/parser.js:152`):
parse the `List-Unsubscribe` header; the `List-Unsubscribe-Post` branch
of the source always yields `null`, as does the final fallthrough. -/
def extractUnsubscribeLinkOfMsg (m : GMessage) : Option String :=
  match getHeader m "List-Unsubscribe" with
  | some hv =>
      match parseUnsubscribeHeader hv with
      | some link => some link
      | none => none
  | none => none

/-- The sender email under which `analyzeMessages` files a message:
`extractEmail` of the `From` header, with the JS-falsy empty string
treated as underivable (`if (!senderInfo.email) continue`). -/
def derivedEmail (m : GMessage) : Option String :=
  match getHeader m "From" with
  | none => none
  | some fromV =>
      match extractEmail fromV with
      | none => none
      | some e => if e = "" then none else some e

/-- A per-sender record of `analyzeMessages` (`src/utils/parser.js:47`). -/
structure Sender where
  email : String
  name : Option String
  totalCount : Nat
  unreadCount : Nat
  messageIds : List Nat
  unsubscribeLink : Option String
  lastMessageDate : Option Nat
  isNewsletter : Bool
deriving DecidableEq, Repr

/-- The `stats` object of the parser's analysis result. -/
structure AnalysisStats where
  totalEmails : Nat
  unreadEmails : Nat
  totalSenders : Nat
  newsletterSenders : Nat
deriving DecidableEq, Repr

/-- The value returned by `EmailParser.analyzeMessages`. -/
structure AnalysisResult where
  senders : List Sender
  stats : AnalysisStats
deriving DecidableEq, Repr

/-- The loop state of `analyzeMessages`: the senders map (a JS `Map`
keyed by email, i.e. an insertion-ordered list with unique keys) and the
two running counters. -/
structure AState where
  senders : List Sender
  totalEmails : Nat
  unreadEmails : Nat
deriving DecidableEq, Repr

/-- The in-place mutation of one sender record for one message
(`src/utils/parser.js:59`–`78`): bump the counts, append the id, set the
unsubscribe link only when not yet set, keep the max date (a JS-falsy
stored `0` is overwritten, which coincides with the max on `Nat`), and
latch the newsletter flag. -/
def updateSender (m : GMessage) (isUnread : Bool) (link : Option String) (s : Sender) : Sender :=
  { s with
    totalCount := s.totalCount + 1
    unreadCount := if isUnread then s.unreadCount + 1 else s.unreadCount
    messageIds := s.messageIds ++ [m.id]
    unsubscribeLink :=
      if link.isSome && s.unsubscribeLink.isNone then link else s.unsubscribeLink
    lastMessageDate :=
      some (match s.lastMessageDate with
            | none => m.internalDate
            | some d => if m.internalDate > d then m.internalDate else d)
    isNewsletter := s.isNewsletter || isNewsletterMessage m }

/-- A fresh record as created on first sight of a sender
(`src/utils/parser.js:47`–`56`). -/
def freshSender (e : String) (name : Option String) : Sender :=
  { email := e, name := name, totalCount := 0, unreadCount := 0, messageIds := []
    unsubscribeLink := none, lastMessageDate := none, isNewsletter := false }

/-- The create-or-update of the senders map for one message filed under
sender `e` (`src/utils/parser.js:46`–`78`): add a fresh record when the
key is new, then mutate the record with that key in place. -/
def analyzeSenders (m : GMessage) (e : String) (senders : List Sender) : List Sender :=
  (if senders.any (fun s => s.email = e) then senders
   else senders ++ [freshSender e ((getHeader m "From").bind extractName)]).map
    (fun s =>
      if s.email = e then
        updateSender m (m.labelIds.contains "UNREAD") (extractUnsubscribeLinkOfMsg m) s
      else s)

/-- One iteration of the `for (const message of messages)` loop of
`analyzeMessages` (`src/utils/parser.js:27`–`79`).  Note that
`totalEmails`/`unreadEmails` are bumped before the sender is derived. -/
def analyzeStep (st : AState) (m : GMessage) : AState :=
  if m.hasPayload then
    let total := st.totalEmails + 1
    let unread := if m.labelIds.contains "UNREAD" then st.unreadEmails + 1 else st.unreadEmails
    match derivedEmail m with
    | none => ⟨st.senders, total, unread⟩
    | some e => ⟨analyzeSenders m e st.senders, total, unread⟩
  else st

/-- Stable insertion of a record into a list sorted by descending
`totalCount`; records with an equal count stay behind earlier ones. -/
def insertDesc (x : Sender) : List Sender → List Sender
  | [] => [x]
  | y :: ys => if x.totalCount > y.totalCount then x :: y :: ys else y :: insertDesc x ys

/-- Model of the stable `senders.sort((a, b) => b.totalCount - a.totalCount)`. -/
def sortByCountDesc : List Sender → List Sender
  | [] => []
  | x :: xs => insertDesc x (sortByCountDesc xs)

/-- `EmailParser.analyzeMessages` (`src/utils/parser.js:22`–`94`). -/
def analyzeMessages (messages : List GMessage) : AnalysisResult :=
  let st := messages.foldl analyzeStep ⟨[], 0, 0⟩
  let senders := sortByCountDesc st.senders
  { senders := senders
    stats :=
      { totalEmails := st.totalEmails
        unreadEmails := st.unreadEmails
        totalSenders := senders.length
        newsletterSenders := (senders.filter (fun s => s.isNewsletter)).length } }

/-! ## `gmail-api.js`: chunking, batch delete and retry -/

/-- The loop of `chunkArray`, with an explicit fuel bound on the number
of iterations so that the recursion is structural; with `size ≥ 1` a
fuel of `l.length` always suffices. -/
def chunkGo (size : Nat) : Nat → List α → List (List α)
  | _, [] => []
  | 0, _ :: _ => []
  | fuel + 1, x :: xs => (x :: xs).take size :: chunkGo size fuel ((x :: xs).drop size)

/-- `GmailAPI.chunkArray` (`src/utils/gmail-api.js:314`): slices of
`size` starting at 0, size, 2·size, …  With `size = 0` the source loop
does not terminate, so the model returns `[]` there; all claims assume
`size ≥ 1`. -/
def chunkArray (l : List α) (size : Nat) : List (List α) :=
  match size with
  | 0 => []
  | s + 1 => chunkGo (s + 1) l.length l

/-- `GmailAPI.batchDelete` (`src/utils/gmail-api.js:144`): reject an
empty id list, otherwise issue one `batchDelete` request per chunk of at
most 1000 ids; the returned list holds the request bodies in order. -/
def batchDelete (messageIds : List Nat) : Except String (List (List Nat)) :=
  if messageIds.isEmpty then Except.error "Не указаны письма для удаления"
  else Except.ok (chunkArray messageIds 1000)

/-- The non-retryable test of `retryWithBackoff`
(`src/utils/gmail-api.js:345`): the error message mentions authorization
or missing permissions. -/
def isNonRetryableMsg (msg : String) : Bool :=
  strIncludes msg "авторизации" || strIncludes msg "прав доступа"

/-- Error messages thrown by `GmailAPI.handleError`
(`src/utils/gmail-api.js:85`–`103`), by status code. -/
def authRequiredMsg : String := "Требуется повторная авторизация"

/-- 403. -/
def permissionDeniedMsg : String := "Недостаточно прав доступа"

/-- 429. -/
def rateLimitedMsg : String := "Превышен лимит запросов. Попробуйте позже."

/-- 500/502/503. -/
def serviceUnavailableMsg : String := "Сервер Gmail временно недоступен. Попробуйте позже."

/-- The loop of `retryWithBackoff` (`src/utils/gmail-api.js:335`–`358`).
`outcomes i` is what the wrapped operation does on its `i`-th execution;
`fuel` is the number of attempts left and `i` the attempts already made.
Returns the surfaced result, the number of executions, and the list of
backoff delays slept, in ms.  (With `maxRetries = 0` the source throws
an undefined `lastError`; the model surfaces `last`.) -/
def retryGo (outcomes : Nat → Except String α) : Nat → Nat → String → List Nat →
    Except String α × Nat × List Nat
  | 0, i, last, delays => (Except.error last, i, delays)
  | fuel + 1, i, _, delays =>
      match outcomes i with
      | Except.ok v => (Except.ok v, i + 1, delays)
      | Except.error e =>
          if isNonRetryableMsg e then (Except.error e, i + 1, delays)
          else retryGo outcomes fuel (i + 1) e (delays ++ [2 ^ i * 1000])

/-- `GmailAPI.retryWithBackoff(fn, maxRetries = 3)`. -/
def retryWithBackoff (outcomes : Nat → Except String α) (maxRetries : Nat) :
    Except String α × Nat × List Nat :=
  retryGo outcomes maxRetries 0 "" []

/-! ## `background.js`: pagination, bulk delete, cache patch -/

/-- One response of the cursor-paginated list endpoint: the message ids
of the page and the optional continuation token. -/
structure GPage where
  messages : List Nat
  nextPageToken : Option Nat
deriving DecidableEq, Repr

/-- Result of an enumerator run: the collected ids, the issued requests
as (requested `maxResults`, `pageToken` sent) pairs, and the number of
inter-page delays slept. -/
structure EnumResult where
  ids : List Nat
  reqs : List (Nat × Option Nat)
  delays : Nat
deriving DecidableEq, Repr

/-- The `while` loop of `getAllMessageIds`
(`src/background/background.js:256`–`276`), `BATCH_SIZE = 100`
(`searchMessages` of `gmail-api.js:225` is the same loop with an added
query parameter).  `pages` are the provider's successive responses;
`none` when they run out before the loop stops. -/
def getAllIdsGo (cap : Nat) : List GPage → Option Nat → List Nat →
    List (Nat × Option Nat) → Nat → Option EnumResult
  | [], _, acc, reqs, delays =>
      if cap ≤ acc.length then some ⟨acc, reqs, delays⟩ else none
  | p :: rest, tok, acc, reqs, delays =>
      if cap ≤ acc.length then some ⟨acc, reqs, delays⟩
      else
        match p.nextPageToken with
        | none => some ⟨acc ++ p.messages, reqs ++ [(min 100 (cap - acc.length), tok)], delays⟩
        | some t =>
            if cap ≤ (acc ++ p.messages).length then
              some ⟨acc ++ p.messages, reqs ++ [(min 100 (cap - acc.length), tok)], delays⟩
            else
              getAllIdsGo cap rest (some t) (acc ++ p.messages)
                (reqs ++ [(min 100 (cap - acc.length), tok)]) (delays + 1)

/-- `getAllMessageIds(maxResults)` (`src/background/background.js:252`). -/
def getAllMessageIds (pages : List GPage) (maxResults : Nat) : Option EnumResult :=
  getAllIdsGo maxResults pages none [] [] 0

/-- The `do … while (pageToken)` enumeration of
`deleteEmailsFromSender` (`src/background/background.js:442`–`461`):
collect every page until one has no continuation token, sleeping between
pages; unbounded by any cap. -/
def enumFromSender : List GPage → Option (List Nat × Nat)
  | [] => none
  | p :: rest =>
      match p.nextPageToken with
      | none => some (p.messages, 0)
      | some _ =>
          match enumFromSender rest with
          | some (ids, d) => some (p.messages ++ ids, d + 1)
          | none => none

/-- A cached sender entry as read by the cache patch of
`deleteEmailsFromSender` (fields the patch never reads are omitted). -/
structure BSender where
  email : String
  totalCount : Int
  unreadCount : Int
deriving DecidableEq, Repr

/-- The cached stats of the background analysis (`Int`, since the JS
subtraction is unchecked). -/
structure BStats where
  totalEmails : Int
  unreadEmails : Int
  totalSenders : Int
deriving DecidableEq, Repr

/-- The cached `emailAnalysis` object. -/
structure BAnalysis where
  senders : List BSender
  stats : BStats
deriving DecidableEq, Repr

/-- The cache patch of `deleteEmailsFromSender`
(`src/background/background.js:499`–`514`): drop the sender's record and,
when one existed, subtract its counts from the stats. -/
def applyCacheAfterDelete (email : String) : Option BAnalysis → Option BAnalysis
  | none => none
  | some a =>
      let sender? := a.senders.find? (fun s => s.email = email)
      let senders2 := a.senders.filter (fun s => s.email ≠ email)
      match sender? with
      | some s =>
          some ⟨senders2,
                ⟨a.stats.totalEmails - s.totalCount,
                 a.stats.unreadEmails - s.unreadCount,
                 a.stats.totalSenders - 1⟩⟩
      | none => some ⟨senders2, a.stats⟩

instance [DecidableEq ε] [DecidableEq α] : DecidableEq (Except ε α) := fun a b =>
  match a, b with
  | Except.ok x, Except.ok y =>
      if h : x = y then isTrue (by rw [h]) else isFalse (by simp [Except.ok.injEq, h])
  | Except.ok _, Except.error _ => isFalse (fun h => Except.noConfusion h)
  | Except.error _, Except.ok _ => isFalse (fun h => Except.noConfusion h)
  | Except.error x, Except.error y =>
      if h : x = y then isTrue (by rw [h]) else isFalse (by simp [Except.error.injEq, h])

/-- Outcome of one `deleteEmailsFromSender` run: the surfaced result,
the bodies of the `batchDelete` requests issued, and the cache after the
run. -/
structure DeleteRun where
  outcome : Except String Unit
  deleteRequests : List (List Nat)
  cache : Option BAnalysis
deriving DecidableEq, Repr

/-- `deleteEmailsFromSender(email)` (`src/background/background.js:433`):
re-enumerate all messages from the sender, throw `Письма не найдены`
(NothingToDelete) on zero ids before any delete request or cache write,
otherwise delete in chunks of 1000 and patch the cache. -/
def deleteEmailsFromSender (email : String) (pages : List GPage)
    (cache : Option BAnalysis) : Option DeleteRun :=
  match enumFromSender pages with
  | none => none
  | some (allMessageIds, _) =>
      if allMessageIds.length = 0 then
        some ⟨Except.error "Письма не найдены", [], cache⟩
      else
        some ⟨Except.ok (), chunkArray allMessageIds 1000, applyCacheAfterDelete email cache⟩

/-! # Theorems

## C10: chunking partitions the id array -/

theorem chunkGo_flatten (s : Nat) : ∀ (fuel : Nat) (l : List α), l.length ≤ fuel →
    (chunkGo (s + 1) fuel l).flatten = l := by
  intro fuel
  induction fuel with
  | zero =>
      intro l h
      have : l = [] := List.eq_nil_of_length_eq_zero (Nat.le_zero.mp h)
      subst this
      rfl
  | succ fuel ih =>
      intro l h
      cases l with
      | nil => rfl
      | cons x xs =>
          have hlen : ((x :: xs).drop (s + 1)).length ≤ fuel := by
            simp only [List.length_drop, List.length_cons]
            simp only [List.length_cons] at h
            omega
          calc (chunkGo (s + 1) (fuel + 1) (x :: xs)).flatten
              = (x :: xs).take (s + 1) ++ (chunkGo (s + 1) fuel ((x :: xs).drop (s + 1))).flatten := by
                simp [chunkGo]
            _ = (x :: xs).take (s + 1) ++ (x :: xs).drop (s + 1) := by rw [ih _ hlen]
            _ = x :: xs := List.take_append_drop _ _

theorem chunkGo_chunks (s : Nat) : ∀ (fuel : Nat) (l : List α), l.length ≤ fuel →
    ∀ c ∈ chunkGo (s + 1) fuel l, c ≠ [] ∧ c.length ≤ s + 1 := by
  intro fuel
  induction fuel with
  | zero =>
      intro l h
      have : l = [] := List.eq_nil_of_length_eq_zero (Nat.le_zero.mp h)
      subst this
      intro c hc
      simp [chunkGo] at hc
  | succ fuel ih =>
      intro l h c hc
      cases l with
      | nil => simp [chunkGo] at hc
      | cons x xs =>
          simp only [chunkGo, List.mem_cons] at hc
          rcases hc with hc | hc
          · subst hc
            constructor
            · simp [List.take_succ_cons]
            · exact List.length_take_le _ _
          · have hlen : ((x :: xs).drop (s + 1)).length ≤ fuel := by
              simp only [List.length_drop, List.length_cons]
              simp only [List.length_cons] at h
              omega
            exact ih _ hlen c hc

/-- Claim C10: for every array and every chunk size of at least 1,
`chunkArray` partitions the array: concatenating the chunks in order
yields the original array, every chunk is non-empty, and every chunk has
length at most the given size; consequently `batchDelete` issues
requests that cover the given ids exactly, each carrying at most 1000
ids. -/
theorem claim_C10 {α : Type} (l : List α) (size : Nat) (hsize : 1 ≤ size) :
    (chunkArray l size).flatten = l ∧
    (∀ c ∈ chunkArray l size, c ≠ [] ∧ c.length ≤ size) ∧
    (∀ (ids : List Nat) (reqs : List (List Nat)), batchDelete ids = Except.ok reqs →
       reqs.flatten = ids ∧ ∀ r ∈ reqs, r ≠ [] ∧ r.length ≤ 1000) := by
  obtain ⟨s, rfl⟩ : ∃ s, size = s + 1 := ⟨size - 1, by omega⟩
  refine ⟨?_, ?_, ?_⟩
  · exact chunkGo_flatten s l.length l (Nat.le_refl _)
  · exact chunkGo_chunks s l.length l (Nat.le_refl _)
  · intro ids reqs h
    unfold batchDelete at h
    by_cases hids : ids.isEmpty
    · simp [hids] at h
    · simp only [hids, Bool.false_eq_true, if_false, Except.ok.injEq] at h
      subst h
      exact ⟨chunkGo_flatten 999 ids.length ids (Nat.le_refl _),
             chunkGo_chunks 999 ids.length ids (Nat.le_refl _)⟩

/-- Witness for C10 at a concrete array and size. -/
theorem claim_C10_witness :
    1 ≤ 2 ∧ (chunkArray [10, 20, 30] 2).flatten = [10, 20, 30] :=
  ⟨by decide, (claim_C10 [10, 20, 30] 2 (by decide)).1⟩

/-! ## C7: empty re-enumeration fails with NothingToDelete, cache untouched -/

/-- Claim C7: whenever the re-enumeration of messages matching a sender
yields zero ids, `deleteEmailsFromSender` fails with the
NothingToDelete error, issues no delete request, and leaves the cached
analysis exactly as it was. -/
theorem claim_C7 (email : String) (pages : List GPage) (cache : Option BAnalysis) (d : Nat)
    (h : enumFromSender pages = some ([], d)) :
    deleteEmailsFromSender email pages cache =
      some ⟨Except.error "Письма не найдены", [], cache⟩ := by
  unfold deleteEmailsFromSender
  rw [h]
  simp

/-- Witness for C7: a single sender-query page with no ids and no
continuation token, against a non-trivial cache. -/
theorem claim_C7_witness :
    enumFromSender [⟨[], none⟩] = some ([], 0) ∧
    deleteEmailsFromSender "a@b.com" [⟨[], none⟩]
        (some ⟨[⟨"a@b.com", 3, 1⟩], ⟨3, 1, 1⟩⟩) =
      some ⟨Except.error "Письма не найдены", [], some ⟨[⟨"a@b.com", 3, 1⟩], ⟨3, 1, 1⟩⟩⟩ :=
  ⟨by decide, claim_C7 "a@b.com" _ _ 0 (by decide)⟩

/-! ## C2: retry/backoff policy -/

/-- Claim C2 counterexample: an operation that always fails with the
AuthRequired message (`Требуется повторная авторизация`) is executed
three times with backoff waits, not once — the non-retryable test looks
for the substring `авторизации`, which that message does not contain —
and an operation failing with a catch-all `RequestFailed` message is
retried as well, contradicting both the immediate-failure clause and the
"any other class is not retried" clause of the claim. -/
theorem claim_C2_counterexample :
    retryWithBackoff (fun _ => (Except.error authRequiredMsg : Except String Unit)) 3
      = (Except.error authRequiredMsg, 3, [1000, 2000, 4000]) ∧
    (retryWithBackoff (fun _ => (Except.error authRequiredMsg : Except String Unit)) 3).2.1 ≠ 1 ∧
    retryWithBackoff (fun _ => (Except.error "HTTP 404" : Except String Unit)) 3
      = (Except.error "HTTP 404", 3, [1000, 2000, 4000]) := by decide

/-- Claim C2 as amended: the only failures `retryWithBackoff` does not
retry are those whose message contains `авторизации` or `прав доступа`;
of the transport's own messages that is the PermissionDenied one only
(the AuthRequired message is not matched by its test), so a
PermissionDenied failure surfaces after a single execution, while
RateLimited, ServiceUnavailable, AuthRequired and every other failure
are re-executed after 2^attempt seconds (1s, 2s, 4s), up to
`maxAttempts` total attempts, after which the last observed failure is
surfaced. -/
theorem claim_C2_amended :
    (isNonRetryableMsg authRequiredMsg = false ∧
     isNonRetryableMsg permissionDeniedMsg = true ∧
     isNonRetryableMsg rateLimitedMsg = false ∧
     isNonRetryableMsg serviceUnavailableMsg = false) ∧
    (∀ (α : Type) (f : Nat → Except String α) (e : String) (n : Nat),
       0 < n → f 0 = Except.error e → isNonRetryableMsg e = true →
       retryWithBackoff f n = (Except.error e, 1, [])) ∧
    (∀ es : Nat → String, (∀ i, i < 3 → isNonRetryableMsg (es i) = false) →
       retryWithBackoff (fun i => (Except.error (es i) : Except String Unit)) 3
         = (Except.error (es 2), 3, [1000, 2000, 4000])) ∧
    (∀ (α : Type) (f : Nat → Except String α) (v : α) (e : String),
       f 0 = Except.error e → isNonRetryableMsg e = false → f 1 = Except.ok v →
       retryWithBackoff f 3 = (Except.ok v, 2, [1000])) := by
  refine ⟨by decide, ?_, ?_, ?_⟩
  · intro α f e n hn h0 hnr
    obtain ⟨m, rfl⟩ : ∃ m, n = m + 1 := ⟨n - 1, by omega⟩
    simp [retryWithBackoff, retryGo, h0, hnr]
  · intro es h
    have h0 := h 0 (by omega)
    have h1 := h 1 (by omega)
    have h2 := h 2 (by omega)
    simp [retryWithBackoff, retryGo, h0, h1, h2]
  · intro α f v e h0 hnr h1
    simp [retryWithBackoff, retryGo, h0, hnr, h1]

/-- Witness for C2 (amended): a RateLimited failure on all three
attempts surfaces the last failure after three executions and backoff
delays of 1s, 2s, 4s. -/
theorem claim_C2_witness :
    isNonRetryableMsg rateLimitedMsg = false ∧
    retryWithBackoff (fun _ => (Except.error rateLimitedMsg : Except String Unit)) 3
      = (Except.error rateLimitedMsg, 3, [1000, 2000, 4000]) :=
  ⟨by decide, claim_C2_amended.2.2.1 (fun _ => rateLimitedMsg)
    (fun _ _ => (by decide : isNonRetryableMsg rateLimitedMsg = false))⟩

/-! ## Structural lemmas about one analysis step -/

theorem derivedEmail_noPayload (m : GMessage) (h : m.hasPayload = false) :
    derivedEmail m = none := by
  simp [derivedEmail, getHeader, h]

theorem analyzeStep_senders_eq (st : AState) (m : GMessage) :
    (analyzeStep st m).senders =
      match derivedEmail m with
      | none => st.senders
      | some e => analyzeSenders m e st.senders := by
  unfold analyzeStep
  by_cases hp : m.hasPayload
  · cases hd : derivedEmail m <;> simp [hp, hd]
  · rw [derivedEmail_noPayload m (by simpa using hp)]
    simp [hp]

theorem analyzeStep_totalEmails (st : AState) (m : GMessage) :
    (analyzeStep st m).totalEmails = st.totalEmails + (if m.hasPayload then 1 else 0) := by
  unfold analyzeStep
  by_cases hp : m.hasPayload
  · cases hd : derivedEmail m <;> simp [hp, hd]
  · simp [hp]

theorem analyzeStep_unreadEmails (st : AState) (m : GMessage) :
    (analyzeStep st m).unreadEmails = st.unreadEmails +
      (if m.hasPayload && m.labelIds.contains "UNREAD" then 1 else 0) := by
  unfold analyzeStep
  by_cases hp : m.hasPayload
  · by_cases hu : "UNREAD" ∈ m.labelIds <;>
      cases hd : derivedEmail m <;> simp [hp, hd, hu]
  · simp [hp]

theorem mem_analyzeSenders {m : GMessage} {e : String} {l : List Sender} {s : Sender}
    (hs : s ∈ analyzeSenders m e l) :
    ∃ t, (t ∈ l ∨ t = freshSender e ((getHeader m "From").bind extractName)) ∧
      s = (if t.email = e then
             updateSender m (m.labelIds.contains "UNREAD") (extractUnsubscribeLinkOfMsg m) t
           else t) := by
  unfold analyzeSenders at hs
  rw [List.mem_map] at hs
  obtain ⟨t, ht, rfl⟩ := hs
  refine ⟨t, ?_, rfl⟩
  by_cases hany : l.any (fun s => s.email = e)
  · rw [if_pos hany] at ht
    exact Or.inl ht
  · rw [if_neg hany, List.mem_append] at ht
    rcases ht with ht | ht
    · exact Or.inl ht
    · exact Or.inr (List.mem_singleton.mp ht)

/-- A per-record predicate preserved by the record update and satisfied
by fresh records is preserved by one analysis step. -/
theorem analyzeStep_senders_pred (P : Sender → Prop)
    (hupd : ∀ m isU link s, P s → P (updateSender m isU link s))
    (hfresh : ∀ e n, P (freshSender e n))
    (st : AState) (m : GMessage) (h : ∀ s ∈ st.senders, P s) :
    ∀ s ∈ (analyzeStep st m).senders, P s := by
  intro s hs
  rw [analyzeStep_senders_eq] at hs
  cases hd : derivedEmail m with
  | none => rw [hd] at hs; exact h s hs
  | some e =>
      rw [hd] at hs
      obtain ⟨t, ht, rfl⟩ := mem_analyzeSenders hs
      have hPt : P t := by
        rcases ht with ht | ht
        · exact h t ht
        · rw [ht]; exact hfresh _ _
      by_cases hte : t.email = e
      · rw [if_pos hte]; exact hupd _ _ _ _ hPt
      · rw [if_neg hte]; exact hPt

/-- Fold version of `analyzeStep_senders_pred`. -/
theorem analyzeFold_senders_pred (P : Sender → Prop)
    (hupd : ∀ m isU link s, P s → P (updateSender m isU link s))
    (hfresh : ∀ e n, P (freshSender e n)) :
    ∀ (msgs : List GMessage) (st : AState), (∀ s ∈ st.senders, P s) →
      ∀ s ∈ (msgs.foldl analyzeStep st).senders, P s := by
  intro msgs
  induction msgs with
  | nil => intro st h; exact h
  | cons m rest ih =>
      intro st h
      exact ih (analyzeStep st m) (analyzeStep_senders_pred P hupd hfresh st m h)

/-! ## The final sort is a permutation -/

theorem insertDesc_perm (x : Sender) (l : List Sender) : (insertDesc x l).Perm (x :: l) := by
  induction l with
  | nil => exact List.Perm.refl _
  | cons y ys ih =>
      unfold insertDesc
      by_cases h : x.totalCount > y.totalCount
      · rw [if_pos h]
      · rw [if_neg h]
        exact (ih.cons y).trans (List.Perm.swap x y ys)

theorem sortByCountDesc_perm (l : List Sender) : (sortByCountDesc l).Perm l := by
  induction l with
  | nil => exact List.Perm.refl _
  | cons x xs ih =>
      unfold sortByCountDesc
      exact (insertDesc_perm x (sortByCountDesc xs)).trans (ih.cons x)

/-! ## C9: unreadCount never exceeds totalCount -/

/-- Claim C9: for every input sequence and every sender record,
`unreadCount ≤ totalCount` — after folding in any prefix of the input as
well as in the final (sorted) analysis result.  (Both counters are
naturals in the model, matching the code which only increments them from
zero, so non-negativity is inherent.) -/
theorem claim_C9 (msgs : List GMessage) :
    (∀ n, ∀ s ∈ ((msgs.take n).foldl analyzeStep ⟨[], 0, 0⟩).senders,
       s.unreadCount ≤ s.totalCount) ∧
    (∀ s ∈ (analyzeMessages msgs).senders, s.unreadCount ≤ s.totalCount) := by
  have hupd : ∀ (m : GMessage) (isU : Bool) (link : Option String) (s : Sender),
      s.unreadCount ≤ s.totalCount →
      (updateSender m isU link s).unreadCount ≤ (updateSender m isU link s).totalCount := by
    intro m isU link s h
    unfold updateSender
    by_cases hu : isU <;> simp [hu] <;> omega
  have hfresh : ∀ (e : String) (n : Option String),
      (freshSender e n).unreadCount ≤ (freshSender e n).totalCount := by
    intro e n
    simp [freshSender]
  constructor
  · intro n
    exact analyzeFold_senders_pred _ hupd hfresh (msgs.take n) ⟨[], 0, 0⟩ (by simp)
  · intro s hs
    have hmem : s ∈ (msgs.foldl analyzeStep ⟨[], 0, 0⟩).senders := by
      unfold analyzeMessages at hs
      exact (sortByCountDesc_perm _).mem_iff.mp hs
    exact analyzeFold_senders_pred _ hupd hfresh msgs ⟨[], 0, 0⟩ (by simp) s hmem

/-- Witness for C9: one unread message from `w@x.com`; the resulting
record has `unreadCount = 1 ≤ 1 = totalCount`. -/
theorem claim_C9_witness :
    (⟨"w@x.com", none, 1, 1, [7], none, some 3, false⟩ : Sender) ∈
      (analyzeMessages [⟨7, ["UNREAD"], true, [⟨"From", "w@x.com"⟩], 3⟩]).senders ∧
    (⟨"w@x.com", none, 1, 1, [7], none, some 3, false⟩ : Sender).unreadCount ≤
      (⟨"w@x.com", none, 1, 1, [7], none, some 3, false⟩ : Sender).totalCount :=
  ⟨by decide,
   (claim_C9 [⟨7, ["UNREAD"], true, [⟨"From", "w@x.com"⟩], 3⟩]).2
     ⟨"w@x.com", none, 1, 1, [7], none, some 3, false⟩ (by decide)⟩

/-! ## C8: a set unsubscribe link is never overwritten -/

/-- `find?` over the senders map keyed by email. -/
def findSender (l : List Sender) (e : String) : Option Sender :=
  l.find? (fun s => s.email = e)

theorem findSender_map (f : Sender → Sender) (hf : ∀ s, (f s).email = s.email)
    (l : List Sender) (e : String) :
    findSender (l.map f) e = (findSender l e).map f := by
  induction l with
  | nil => rfl
  | cons s rest ih =>
      unfold findSender at ih ⊢
      by_cases h : s.email = e
      · rw [List.map_cons, List.find?_cons_of_pos, List.find?_cons_of_pos] <;>
          simp [h, hf]
      · rw [List.map_cons, List.find?_cons_of_neg, List.find?_cons_of_neg]
        · exact ih
        · simp [h]
        · simp [h, hf]

theorem claim_C8_step (st : AState) (m : GMessage) (e lnk : String) (s : Sender)
    (hf : findSender st.senders e = some s) (hl : s.unsubscribeLink = some lnk) :
    ∃ s2, findSender (analyzeStep st m).senders e = some s2 ∧
      s2.unsubscribeLink = some lnk := by
  rw [analyzeStep_senders_eq]
  cases hd : derivedEmail m with
  | none => exact ⟨s, hf, hl⟩
  | some e2 =>
      unfold analyzeSenders
      rw [findSender_map]
      · have hbase : findSender
            (if st.senders.any (fun s => s.email = e2) then st.senders
             else st.senders ++ [freshSender e2 ((getHeader m "From").bind extractName)]) e
            = some s := by
          by_cases hany : st.senders.any (fun s => s.email = e2)
          · rw [if_pos hany]; exact hf
          · rw [if_neg hany]
            unfold findSender at hf ⊢
            rw [List.find?_append, hf]
            rfl
        rw [hbase]
        refine ⟨_, rfl, ?_⟩
        show (if s.email = e2 then
                updateSender m (m.labelIds.contains "UNREAD") (extractUnsubscribeLinkOfMsg m) s
              else s).unsubscribeLink = some lnk
        by_cases hse : s.email = e2
        · rw [if_pos hse]
          unfold updateSender
          simp [hl]
        · rw [if_neg hse]
          exact hl
      · intro t
        by_cases hte : t.email = e2 <;> simp [hte, updateSender]

/-- Claim C8: once a sender record's `unsubscribeLink` is set to a
non-null value, folding in any sequence of later summaries leaves that
sender's link unchanged (first-write-wins), from any aggregation state. -/
theorem claim_C8 (st : AState) (msgs : List GMessage) (e lnk : String) (s : Sender)
    (hf : findSender st.senders e = some s) (hl : s.unsubscribeLink = some lnk) :
    ∃ s2, findSender ((msgs.foldl analyzeStep st).senders) e = some s2 ∧
      s2.unsubscribeLink = some lnk := by
  induction msgs generalizing st s with
  | nil => exact ⟨s, hf, hl⟩
  | cons m rest ih =>
      obtain ⟨s2, hf2, hl2⟩ := claim_C8_step st m e lnk s hf hl
      exact ih (analyzeStep st m) s2 hf2 hl2

/-- Witness for C8: a sender whose link is already `https://u/1` keeps it
after folding in a later summary from the same sender carrying a
different `List-Unsubscribe` link. -/
theorem claim_C8_witness :
    findSender [⟨"a@b", none, 1, 0, [1], some "https://u/1", some 1, true⟩] "a@b" =
      some ⟨"a@b", none, 1, 0, [1], some "https://u/1", some 1, true⟩ ∧
    ∃ s2, findSender
        (([⟨2, [], true, [⟨"From", "a@b"⟩, ⟨"List-Unsubscribe", "<https://u/2>"⟩], 9⟩] :
            List GMessage).foldl analyzeStep
          ⟨[⟨"a@b", none, 1, 0, [1], some "https://u/1", some 1, true⟩], 1, 0⟩).senders "a@b"
        = some s2 ∧ s2.unsubscribeLink = some "https://u/1" :=
  ⟨by decide,
   claim_C8 ⟨[⟨"a@b", none, 1, 0, [1], some "https://u/1", some 1, true⟩], 1, 0⟩
     [⟨2, [], true, [⟨"From", "a@b"⟩, ⟨"List-Unsubscribe", "<https://u/2>"⟩], 9⟩]
     "a@b" "https://u/1" ⟨"a@b", none, 1, 0, [1], some "https://u/1", some 1, true⟩
     (by decide) (by decide)⟩

/-! ## C1: stats versus the sender sequence -/

/-- Sum of `totalCount` over a senders list. -/
def sumTotal (l : List Sender) : Nat := (l.map (fun s => s.totalCount)).sum

/-- Sum of `unreadCount` over a senders list. -/
def sumUnread (l : List Sender) : Nat := (l.map (fun s => s.unreadCount)).sum

/-- The key sequence of a senders list. -/
def emailsOf (l : List Sender) : List String := l.map (fun s => s.email)

theorem sumTotal_map_updIf (m : GMessage) (isU : Bool) (link : Option String) (e : String) :
    ∀ l : List Sender,
      sumTotal (l.map (fun s => if s.email = e then updateSender m isU link s else s))
        = sumTotal l + l.countP (fun s => s.email = e) := by
  intro l
  induction l with
  | nil => rfl
  | cons s rest ih =>
      by_cases h : s.email = e <;>
        simp [sumTotal, List.countP_cons, h, updateSender] at ih ⊢ <;> omega

theorem sumUnread_map_updIf (m : GMessage) (isU : Bool) (link : Option String) (e : String) :
    ∀ l : List Sender,
      sumUnread (l.map (fun s => if s.email = e then updateSender m isU link s else s))
        = sumUnread l + (if isU then 1 else 0) * l.countP (fun s => s.email = e) := by
  intro l
  induction l with
  | nil => rfl
  | cons s rest ih =>
      by_cases h : s.email = e <;> by_cases hu : isU <;>
        simp [sumUnread, List.countP_cons, h, hu, updateSender] at ih ⊢ <;> omega

theorem countP_email_one {l : List Sender} {e : String} (hnd : (emailsOf l).Nodup)
    (hany : l.any (fun s => s.email = e) = true) :
    l.countP (fun s => s.email = e) = 1 := by
  induction l with
  | nil => simp at hany
  | cons s rest ih =>
      rw [emailsOf, List.map_cons, List.nodup_cons] at hnd
      obtain ⟨hnotin, hnd'⟩ := hnd
      by_cases h : s.email = e
      · have hzero : rest.countP (fun s => s.email = e) = 0 := by
          refine List.countP_eq_zero.mpr ?_
          intro t ht
          simp only [decide_eq_true_eq]
          intro hte
          exact hnotin (by
            rw [h, ← hte]
            exact List.mem_map.mpr ⟨t, ht, rfl⟩)
        simp [List.countP_cons, h, hzero]
      · have hany' : rest.any (fun s => s.email = e) = true := by
          simp only [List.any_cons, Bool.or_eq_true] at hany
          rcases hany with hs | hr
          · exact absurd (by simpa using hs) h
          · exact hr
        simp [List.countP_cons, h, ih hnd' hany']

theorem emailsOf_map_updIf (m : GMessage) (isU : Bool) (link : Option String) (e : String)
    (l : List Sender) :
    emailsOf (l.map (fun s => if s.email = e then updateSender m isU link s else s))
      = emailsOf l := by
  unfold emailsOf
  rw [List.map_map]
  refine List.map_congr_left ?_
  intro s _
  by_cases h : s.email = e <;> simp [h, updateSender]

theorem emailsOf_analyzeSenders (m : GMessage) (e : String) (l : List Sender) :
    emailsOf (analyzeSenders m e l)
      = if l.any (fun s => s.email = e) then emailsOf l else emailsOf l ++ [e] := by
  unfold analyzeSenders
  by_cases hany : l.any (fun s => s.email = e)
  · rw [if_pos hany, if_pos hany, emailsOf_map_updIf]
  · rw [if_neg hany, if_neg hany, emailsOf_map_updIf]
    unfold emailsOf
    simp [freshSender]

theorem nodup_emails_analyzeSenders (m : GMessage) (e : String) (l : List Sender)
    (h : (emailsOf l).Nodup) : (emailsOf (analyzeSenders m e l)).Nodup := by
  rw [emailsOf_analyzeSenders]
  by_cases hany : l.any (fun s => s.email = e)
  · rw [if_pos hany]; exact h
  · rw [if_neg hany]
    have hnotin : e ∉ emailsOf l := by
      intro hmem
      obtain ⟨t, ht, hte⟩ := List.mem_map.mp hmem
      have hall := List.any_eq_false.mp
        (show l.any (fun s => s.email = e) = false by simpa using hany)
      have := hall t ht
      simp [hte] at this
    simp [List.nodup_append, h, hnotin]

theorem sumTotal_analyzeSenders (m : GMessage) (e : String) (l : List Sender)
    (h : (emailsOf l).Nodup) : sumTotal (analyzeSenders m e l) = sumTotal l + 1 := by
  unfold analyzeSenders
  by_cases hany : l.any (fun s => s.email = e)
  · rw [if_pos hany, sumTotal_map_updIf, countP_email_one h hany]
  · rw [if_neg hany, sumTotal_map_updIf]
    have h0 : l.countP (fun s => s.email = e) = 0 := by
      refine List.countP_eq_zero.mpr ?_
      intro t ht
      have hall := List.any_eq_false.mp
        (show l.any (fun s => s.email = e) = false by simpa using hany)
      have := hall t ht
      simpa using this
    rw [List.countP_append, h0]
    simp [sumTotal, freshSender]

theorem sumUnread_analyzeSenders (m : GMessage) (e : String) (l : List Sender)
    (h : (emailsOf l).Nodup) :
    sumUnread (analyzeSenders m e l)
      = sumUnread l + (if m.labelIds.contains "UNREAD" then 1 else 0) := by
  unfold analyzeSenders
  by_cases hany : l.any (fun s => s.email = e)
  · rw [if_pos hany, sumUnread_map_updIf, countP_email_one h hany]
    by_cases hu : m.labelIds.contains "UNREAD" <;> simp [hu]
  · rw [if_neg hany, sumUnread_map_updIf]
    have h0 : l.countP (fun s => s.email = e) = 0 := by
      refine List.countP_eq_zero.mpr ?_
      intro t ht
      have hall := List.any_eq_false.mp
        (show l.any (fun s => s.email = e) = false by simpa using hany)
      have := hall t ht
      simpa using this
    rw [List.countP_append, h0]
    by_cases hu : m.labelIds.contains "UNREAD" <;>
      simp [sumUnread, freshSender, hu]

/-- Combined loop invariant of `analyzeMessages`: the key sequence stays
duplicate-free, the two stat counters count payload-bearing summaries,
and the per-record totals sum to the number of summaries whose sender
was derived. -/
theorem analyzeFold_master : ∀ (msgs : List GMessage) (st : AState),
    (emailsOf st.senders).Nodup →
    (emailsOf (msgs.foldl analyzeStep st).senders).Nodup ∧
    (msgs.foldl analyzeStep st).totalEmails
      = st.totalEmails + msgs.countP (fun m => m.hasPayload) ∧
    (msgs.foldl analyzeStep st).unreadEmails
      = st.unreadEmails + msgs.countP (fun m => m.hasPayload && m.labelIds.contains "UNREAD") ∧
    sumTotal (msgs.foldl analyzeStep st).senders
      = sumTotal st.senders + msgs.countP (fun m => (derivedEmail m).isSome) ∧
    sumUnread (msgs.foldl analyzeStep st).senders
      = sumUnread st.senders
        + msgs.countP (fun m => (derivedEmail m).isSome && m.labelIds.contains "UNREAD") := by
  intro msgs
  induction msgs with
  | nil =>
      intro st h
      exact ⟨h, by simp, by simp, by simp, by simp⟩
  | cons m rest ih =>
      intro st h
      have hstep := analyzeStep_senders_eq st m
      have hsums : (emailsOf (analyzeStep st m).senders).Nodup ∧
          sumTotal (analyzeStep st m).senders
            = sumTotal st.senders + (if (derivedEmail m).isSome then 1 else 0) ∧
          sumUnread (analyzeStep st m).senders
            = sumUnread st.senders
              + (if (derivedEmail m).isSome && m.labelIds.contains "UNREAD" then 1 else 0) := by
        cases hd : derivedEmail m with
        | none =>
            rw [hd] at hstep
            simp only [] at hstep
            rw [hstep]
            simp [h]
        | some e =>
            rw [hd] at hstep
            simp only [] at hstep
            rw [hstep]
            refine ⟨nodup_emails_analyzeSenders m e _ h, ?_, ?_⟩
            · rw [sumTotal_analyzeSenders m e _ h]
              simp
            · rw [sumUnread_analyzeSenders m e _ h]
              by_cases hu : m.labelIds.contains "UNREAD" <;> simp [hu]
      obtain ⟨hN, hS, hV⟩ := hsums
      obtain ⟨ihN, ihT, ihU, ihS, ihV⟩ := ih (analyzeStep st m) hN
      rw [List.foldl_cons]
      refine ⟨ihN, ?_, ?_, ?_, ?_⟩
      · rw [ihT, analyzeStep_totalEmails, List.countP_cons]
        by_cases hp : m.hasPayload = true <;> simp [hp] <;> omega
      · rw [ihU, analyzeStep_unreadEmails, List.countP_cons]
        by_cases hp : m.hasPayload = true <;>
          by_cases hu : m.labelIds.contains "UNREAD" = true <;> simp [hp, hu] <;> omega
      · rw [ihS, hS, List.countP_cons]
        by_cases hd : (derivedEmail m).isSome = true <;> simp [hd] <;> omega
      · rw [ihV, hV, List.countP_cons]
        by_cases hd : (derivedEmail m).isSome = true <;>
          by_cases hu : m.labelIds.contains "UNREAD" = true <;> simp [hd, hu] <;> omega

theorem countP_payload_split (msgs : List GMessage) :
    msgs.countP (fun m => m.hasPayload)
      = msgs.countP (fun m => (derivedEmail m).isSome)
        + msgs.countP (fun m => m.hasPayload && (derivedEmail m).isNone) := by
  induction msgs with
  | nil => rfl
  | cons m rest ih =>
      simp only [List.countP_cons]
      by_cases hp : m.hasPayload = true
      · cases hd : derivedEmail m <;> simp [hp, hd] <;> omega
      · have hd : derivedEmail m = none :=
          derivedEmail_noPayload m (by simpa using hp)
        simp [hp, hd]
        omega

theorem countP_payload_split_unread (msgs : List GMessage) :
    msgs.countP (fun m => m.hasPayload && m.labelIds.contains "UNREAD")
      = msgs.countP (fun m => (derivedEmail m).isSome && m.labelIds.contains "UNREAD")
        + msgs.countP
            (fun m => m.hasPayload && (derivedEmail m).isNone && m.labelIds.contains "UNREAD") := by
  induction msgs with
  | nil => rfl
  | cons m rest ih =>
      by_cases hp : m.hasPayload = true
      · cases hd : derivedEmail m <;>
          by_cases hu : m.labelIds.contains "UNREAD" = true <;>
            simp [List.countP_cons, hp, hd, hu] at ih ⊢ <;> omega
      · have hd : derivedEmail m = none :=
          derivedEmail_noPayload m (by simpa using hp)
        simp [List.countP_cons, hp, hd] at ih ⊢
        omega

/-- Claim C1 counterexample: a single summary that has a payload but no
`From` header is skipped for aggregation yet still counted: the result
has no sender records while `stats.totalEmails = 1` and
`stats.unreadEmails = 1`, so neither stat equals the corresponding sum
over the sender sequence. -/
theorem claim_C1_counterexample :
    (analyzeMessages [⟨1, ["UNREAD"], true, [], 5⟩]).senders = [] ∧
    (analyzeMessages [⟨1, ["UNREAD"], true, [], 5⟩]).stats.totalEmails = 1 ∧
    (analyzeMessages [⟨1, ["UNREAD"], true, [], 5⟩]).stats.unreadEmails = 1 ∧
    (analyzeMessages [⟨1, ["UNREAD"], true, [], 5⟩]).stats.totalEmails
      ≠ sumTotal (analyzeMessages [⟨1, ["UNREAD"], true, [], 5⟩]).senders ∧
    (analyzeMessages [⟨1, ["UNREAD"], true, [], 5⟩]).stats.unreadEmails
      ≠ sumUnread (analyzeMessages [⟨1, ["UNREAD"], true, [], 5⟩]).senders := by decide

/-- Claim C1 as amended: `stats.totalSenders` is the number of
SenderRecords and `stats.newsletterSenders` the number with the
newsletter (bulk) flag, but `stats.totalEmails`/`stats.unreadEmails`
count every summary with a payload — including those whose sender cannot
be derived, which contribute to these two stats while contributing to no
SenderRecord; the sums over the sender sequence equal the counts of
derivable summaries only. -/
theorem claim_C1_amended (msgs : List GMessage) :
    (analyzeMessages msgs).stats.totalSenders = (analyzeMessages msgs).senders.length ∧
    (analyzeMessages msgs).stats.newsletterSenders
      = ((analyzeMessages msgs).senders.filter (fun s => s.isNewsletter)).length ∧
    (analyzeMessages msgs).stats.totalEmails = msgs.countP (fun m => m.hasPayload) ∧
    (analyzeMessages msgs).stats.unreadEmails
      = msgs.countP (fun m => m.hasPayload && m.labelIds.contains "UNREAD") ∧
    sumTotal (analyzeMessages msgs).senders
      = msgs.countP (fun m => (derivedEmail m).isSome) ∧
    sumUnread (analyzeMessages msgs).senders
      = msgs.countP (fun m => (derivedEmail m).isSome && m.labelIds.contains "UNREAD") ∧
    (analyzeMessages msgs).stats.totalEmails
      = sumTotal (analyzeMessages msgs).senders
        + msgs.countP (fun m => m.hasPayload && (derivedEmail m).isNone) ∧
    (analyzeMessages msgs).stats.unreadEmails
      = sumUnread (analyzeMessages msgs).senders
        + msgs.countP
            (fun m => m.hasPayload && (derivedEmail m).isNone && m.labelIds.contains "UNREAD") := by
  obtain ⟨hN, hT, hU, hS, hV⟩ := analyzeFold_master msgs ⟨[], 0, 0⟩ (by simp [emailsOf])
  have hperm := sortByCountDesc_perm (msgs.foldl analyzeStep ⟨[], 0, 0⟩).senders
  have hsortT : sumTotal (sortByCountDesc (msgs.foldl analyzeStep ⟨[], 0, 0⟩).senders)
      = sumTotal (msgs.foldl analyzeStep ⟨[], 0, 0⟩).senders := by
    unfold sumTotal
    exact (hperm.map (fun s => s.totalCount)).sum_eq
  have hsortU : sumUnread (sortByCountDesc (msgs.foldl analyzeStep ⟨[], 0, 0⟩).senders)
      = sumUnread (msgs.foldl analyzeStep ⟨[], 0, 0⟩).senders := by
    unfold sumUnread
    exact (hperm.map (fun s => s.unreadCount)).sum_eq
  refine ⟨rfl, rfl, ?_, ?_, ?_, ?_, ?_, ?_⟩
  · simpa using hT
  · simpa using hU
  · show sumTotal (sortByCountDesc (msgs.foldl analyzeStep ⟨[], 0, 0⟩).senders) = _
    rw [hsortT]
    simpa [sumTotal] using hS
  · show sumUnread (sortByCountDesc (msgs.foldl analyzeStep ⟨[], 0, 0⟩).senders) = _
    rw [hsortU]
    simpa [sumUnread] using hV
  · show (msgs.foldl analyzeStep ⟨[], 0, 0⟩).totalEmails
        = sumTotal (sortByCountDesc (msgs.foldl analyzeStep ⟨[], 0, 0⟩).senders) + _
    rw [hsortT]
    rw [hT, countP_payload_split]
    have hS2 : sumTotal (msgs.foldl analyzeStep ⟨[], 0, 0⟩).senders
        = msgs.countP (fun m => (derivedEmail m).isSome) := by simpa [sumTotal] using hS
    rw [hS2]
    simp
  · show (msgs.foldl analyzeStep ⟨[], 0, 0⟩).unreadEmails
        = sumUnread (sortByCountDesc (msgs.foldl analyzeStep ⟨[], 0, 0⟩).senders) + _
    rw [hsortU]
    rw [hU, countP_payload_split_unread]
    have hV2 : sumUnread (msgs.foldl analyzeStep ⟨[], 0, 0⟩).senders
        = msgs.countP (fun m => (derivedEmail m).isSome && m.labelIds.contains "UNREAD") := by
      simpa [sumUnread] using hV
    rw [hV2]
    simp

/-! ## C5: the bulk-mail indicator -/

/-- The bulk-mail indicator exactly as the claim/spec words it: one of
the three `List-*` headers, or a `Precedence` header whose value is
`bulk` (case-insensitively, matching the code's comparison). -/
def claimBulkIndicator (m : GMessage) : Bool :=
  (getHeader m "List-Unsubscribe").isSome ||
  (getHeader m "List-Id").isSome ||
  (getHeader m "List-Post").isSome ||
  (match getHeader m "Precedence" with
   | some v => lowerS v = "bulk"
   | none => false)

/-- Claim C5: evaluation of the code at the failing input.  A message
whose only special header is `Precedence: list` carries no bulk-mail
indicator in the claim's sense, yet `isNewsletterMessage` returns true
for it (the header-presence loop of `parser.js:199` includes
`Precedence` with any value; the later `=== 'bulk'` comparison is
unreachable), and aggregation marks its sender's record as a
newsletter/bulk sender. -/
theorem claim_C5 :
    isNewsletterMessage ⟨2, [], true, [⟨"From", "a@b"⟩, ⟨"Precedence", "list"⟩], 6⟩ = true ∧
    claimBulkIndicator ⟨2, [], true, [⟨"From", "a@b"⟩, ⟨"Precedence", "list"⟩], 6⟩ = false ∧
    (analyzeMessages [⟨2, [], true, [⟨"From", "a@b"⟩, ⟨"Precedence", "list"⟩], 6⟩]).senders.map
        (fun s => (s.email, s.isNewsletter))
      = [("a@b", true)] := by decide

/-! ## C4: unsubscribe-link extraction -/

theorem prefixOfChars_eq_true_iff : ∀ (p l : List Char),
    prefixOfChars p l = true ↔ ∃ t, l = p ++ t := by
  intro p
  induction p with
  | nil =>
      intro l
      exact ⟨fun _ => ⟨l, rfl⟩, fun _ => rfl⟩
  | cons a as ih =>
      intro l
      cases l with
      | nil => simp [prefixOfChars]
      | cons b bs =>
          simp only [prefixOfChars, Bool.and_eq_true, decide_eq_true_eq]
          constructor
          · rintro ⟨rfl, h⟩
            obtain ⟨t, rfl⟩ := (ih bs).mp h
            exact ⟨t, rfl⟩
          · rintro ⟨t, ht⟩
            injection ht with h1 h2
            exact ⟨h1.symm, (ih bs).mpr ⟨t, h2⟩⟩

theorem dropWhile_eq_cons_head {p : α → Bool} :
    ∀ {l : List α} {x : α} {xs : List α}, l.dropWhile p = x :: xs → p x = false := by
  intro l
  induction l with
  | nil => intro x xs h; simp [List.dropWhile] at h
  | cons a as ih =>
      intro x xs h
      rw [List.dropWhile_cons] at h
      by_cases hp : p a
      · rw [if_pos hp] at h
        exact ih h
      · rw [if_neg hp] at h
        injection h with h1 _
        rw [← h1]
        simpa using hp

theorem schemeAngleBody_sound {scheme cs c : List Char}
    (h : schemeAngleBody scheme cs = some c) :
    ∃ body post, c = scheme ++ body ∧ body ≠ [] ∧ ('>' ∉ body) ∧
      cs = scheme ++ body ++ '>' :: post := by
  unfold schemeAngleBody at h
  by_cases hpre : prefixOfChars scheme cs
  · rw [if_pos hpre] at h
    obtain ⟨tail, rfl⟩ := (prefixOfChars_eq_true_iff scheme cs).mp hpre
    rw [List.drop_left] at h
    by_cases hcond : !(tail.takeWhile (· ≠ '>')).isEmpty
        && (tail.takeWhile (· ≠ '>')).length < tail.length
    · rw [if_pos hcond] at h
      injection h with hc
      simp only [Bool.and_eq_true, Bool.not_eq_true', decide_eq_true_eq] at hcond
      obtain ⟨hne, hlt⟩ := hcond
      have hne2 : tail.takeWhile (· ≠ '>') ≠ [] := by
        intro h0
        rw [h0] at hne
        simp at hne
      have hsplit := List.takeWhile_append_dropWhile (fun c => decide (c ≠ '>')) tail
      cases hdw : tail.dropWhile (fun c => decide (c ≠ '>')) with
      | nil =>
          rw [hdw, List.append_nil] at hsplit
          rw [hsplit] at hlt
          omega
      | cons x xs =>
          have hx : x = '>' := by
            have := dropWhile_eq_cons_head hdw
            simpa using this
          refine ⟨tail.takeWhile (· ≠ '>'), xs, hc.symm, hne2, ?_, ?_⟩
          · intro hm
            have := List.mem_takeWhile_imp hm
            simp at this
          · rw [hdw, hx] at hsplit
            conv_lhs => rw [← hsplit]
            rw [List.append_assoc]
    · rw [if_neg hcond] at h
      exact absurd h (by simp)
  · rw [if_neg hpre] at h
    exact absurd h (by simp)

theorem scanAngle_sound (inner : List Char → Option (List Char)) :
    ∀ (l c : List Char), scanAngle inner l = some c →
      ∃ pre suffix, l = pre ++ '<' :: suffix ∧ inner suffix = some c := by
  intro l
  induction l with
  | nil => intro c h; simp [scanAngle] at h
  | cons d rest ih =>
      intro c h
      unfold scanAngle at h
      by_cases hd : d = '<'
      · rw [if_pos hd] at h
        cases hin : inner rest with
        | some x =>
            rw [hin] at h
            injection h with h1
            subst h1
            exact ⟨[], rest, by simp [hd], hin⟩
        | none =>
            rw [hin] at h
            obtain ⟨pre, suffix, hrest, hsuf⟩ := ih c h
            exact ⟨d :: pre, suffix, by rw [hrest]; rfl, hsuf⟩
      · rw [if_neg hd] at h
        obtain ⟨pre, suffix, hrest, hsuf⟩ := ih c h
        exact ⟨d :: pre, suffix, by rw [hrest]; rfl, hsuf⟩

theorem matchHttpAngle_sound {l c : List Char} (h : matchHttpAngle l = some c) :
    ∃ pre post, l = pre ++ '<' :: (c ++ '>' :: post) ∧
      (prefixOfChars "https://".toList c = true ∨ prefixOfChars "http://".toList c = true) ∧
      '>' ∉ c := by
  obtain ⟨pre, suffix, rfl, hsuf⟩ := scanAngle_sound _ _ _ h
  unfold httpContentAfter at hsuf
  cases h1 : schemeAngleBody "https://".toList suffix with
  | some c1 =>
      rw [h1] at hsuf
      injection hsuf with hc
      subst hc
      obtain ⟨body, post, rfl, _, hnb, hsfx⟩ := schemeAngleBody_sound h1
      refine ⟨pre, post, ?_,
        Or.inl ((prefixOfChars_eq_true_iff _ _).mpr ⟨body, rfl⟩), ?_⟩
      · simp [hsfx, List.append_assoc]
      · intro hm
        rcases List.mem_append.mp hm with hm | hm
        · revert hm
          decide
        · exact hnb hm
  | none =>
      rw [h1] at hsuf
      obtain ⟨body, post, rfl, _, hnb, hsfx⟩ := schemeAngleBody_sound hsuf
      refine ⟨pre, post, ?_,
        Or.inr ((prefixOfChars_eq_true_iff _ _).mpr ⟨body, rfl⟩), ?_⟩
      · simp [hsfx, List.append_assoc]
      · intro hm
        rcases List.mem_append.mp hm with hm | hm
        · revert hm
          decide
        · exact hnb hm

theorem matchMailtoAngle_sound {l b : List Char} (h : matchMailtoAngle l = some b) :
    ∃ pre post, l = pre ++ '<' :: ("mailto:".toList ++ b ++ '>' :: post) ∧
      b ≠ [] ∧ '>' ∉ b := by
  obtain ⟨pre, suffix, rfl, hsuf⟩ := scanAngle_sound _ _ _ h
  unfold mailtoContentAfter at hsuf
  cases h1 : schemeAngleBody "mailto:".toList suffix with
  | none =>
      rw [h1] at hsuf
      exact absurd hsuf (by simp)
  | some c1 =>
      rw [h1] at hsuf
      have hsuf2 : c1.drop "mailto:".toList.length = b := by simpa using hsuf
      obtain ⟨body, post, hc1, hne, hnb, hsfx⟩ := schemeAngleBody_sound h1
      rw [hc1, List.drop_left] at hsuf2
      subst hsuf2
      exact ⟨pre, post, by rw [hsfx], hne, hnb⟩

/-- Claim C4 counterexample: on the header value `<mailto:x@y.com>` the
background module's `extractUnsubscribeLink` — the extraction used by the
background sync flow — returns no link instead of the claimed
`mailto:x@y.com`, while the parser module's extraction returns it. -/
theorem claim_C4_counterexample :
    bgExtractUnsubscribeLink "<mailto:x@y.com>" = none ∧
    parseUnsubscribeHeader "<mailto:x@y.com>" = some "mailto:x@y.com" ∧
    bgExtractUnsubscribeLink "<mailto:x@y.com>" ≠ some "mailto:x@y.com" := by decide

/-- Claim C4 as amended: the parser module's `parseUnsubscribeHeader`
behaves as claimed — it returns the first angle-bracketed `http(s)://`
URI when one exists (regardless of any mailto URI's position), otherwise
the first angle-bracketed `mailto:` URI re-prefixed with `mailto:`,
otherwise no link — but the background module's `extractUnsubscribeLink`
implements only the http(s) branch and yields no link for a mailto-only
header. -/
theorem claim_C4_amended :
    (∀ (hv : String) (c : List Char), matchHttpAngle hv.toList = some c →
       parseUnsubscribeHeader hv = some (String.mk c) ∧
       bgExtractUnsubscribeLink hv = some (String.mk c) ∧
       ∃ pre post, hv.toList = pre ++ '<' :: (c ++ '>' :: post) ∧
         (prefixOfChars "https://".toList c = true ∨
          prefixOfChars "http://".toList c = true) ∧
         '>' ∉ c) ∧
    (∀ hv : String, matchHttpAngle hv.toList = none →
       bgExtractUnsubscribeLink hv = none ∧
       parseUnsubscribeHeader hv
         = (matchMailtoAngle hv.toList).map (fun b => String.mk ("mailto:".toList ++ b)) ∧
       ∀ b : List Char, matchMailtoAngle hv.toList = some b →
         ∃ pre post,
           hv.toList = pre ++ '<' :: ("mailto:".toList ++ b ++ '>' :: post) ∧ '>' ∉ b) ∧
    parseUnsubscribeHeader "<mailto:x@y.com>, <https://y.com/u>" = some "https://y.com/u" ∧
    parseUnsubscribeHeader "<https://y.com/u>, <mailto:x@y.com>" = some "https://y.com/u" ∧
    parseUnsubscribeHeader "<mailto:x@y.com>" = some "mailto:x@y.com" ∧
    parseUnsubscribeHeader "no angle uris" = none := by
  refine ⟨?_, ?_, by decide, by decide, by decide, by decide⟩
  · intro hv c h
    refine ⟨?_, ?_, ?_⟩
    · unfold parseUnsubscribeHeader
      rw [h]
    · unfold bgExtractUnsubscribeLink
      rw [h]
      rfl
    · exact matchHttpAngle_sound h
  · intro hv h
    refine ⟨?_, ?_, ?_⟩
    · unfold bgExtractUnsubscribeLink
      rw [h]
      rfl
    · unfold parseUnsubscribeHeader
      rw [h]
      cases hm : matchMailtoAngle hv.toList <;> simp [hm]
    · intro b hb
      obtain ⟨pre, post, hdec, _, hnb⟩ := matchMailtoAngle_sound hb
      exact ⟨pre, post, hdec, hnb⟩

/-- Witness for C4 (amended), at a concrete http-bearing header value. -/
theorem claim_C4_witness :
    matchHttpAngle "<https://y.com/u>".toList = some "https://y.com/u".toList ∧
    parseUnsubscribeHeader "<https://y.com/u>" = some "https://y.com/u" :=
  ⟨by decide, (claim_C4_amended.1 "<https://y.com/u>" "https://y.com/u".toList (by decide)).1⟩

/-! ## C3: sender email and display name extraction -/

/-- The display-name rule exactly as the claim words it: when the value
contains `<`, the substring before the first `<`, trimmed and stripped
of quote characters. -/
def claimDisplayName (s : String) : Option String :=
  if s.toList.contains '<' then
    some (String.mk (stripQuotes (trimL (s.toList.takeWhile (· ≠ '<')))))
  else none

/-- The email rule as amended: the span between the first `<` of the
value and the first `>` lying at least two characters after it (so the
span is non-empty); no span when no such `>` exists. -/
def firstAngleSpan (l : List Char) : Option (List Char) :=
  match l.dropWhile (· ≠ '<') with
  | [] => none
  | _ :: post => angleContentAfter post

/-- The amended claim's email rule for the parser module. -/
def claimEmail (s : String) : Option String :=
  match firstAngleSpan s.toList with
  | some c => some (String.mk (trimL (lowerL c)))
  | none =>
      if s.toList.contains '@' then some (String.mk (lowerL (trimL s.toList)))
      else none

/-- The amended claim's email rule for the background module (no trim on
the bracketed form). -/
def claimEmailBg (s : String) : Option String :=
  match firstAngleSpan s.toList with
  | some c => some (String.mk (lowerL c))
  | none =>
      if s.toList.contains '@' then some (String.mk (lowerL (trimL s.toList)))
      else none

/-- The amended claim's display-name rule: a name is present exactly
when a `<` preceded by at least one character exists; it is the
substring before the first such `<`, trimmed and quote-stripped. -/
def claimName (s : String) : Option String :=
  match s.toList with
  | [] => none
  | c :: rest =>
      if rest.contains '<' then
        some (String.mk (stripQuotes (trimL (c :: rest.takeWhile (· ≠ '<')))))
      else none

theorem jsMatchAngle_gtFree : ∀ l : List Char, '>' ∉ l → jsMatchAngle l = none := by
  intro l
  induction l with
  | nil => intro _; rfl
  | cons c rest ih =>
      intro h
      have hr : '>' ∉ rest := fun hm => h (List.mem_cons_of_mem c hm)
      unfold jsMatchAngle
      by_cases hc : c = '<'
      · rw [if_pos hc]
        have hca : angleContentAfter rest = none := by
          cases rest with
          | nil => rfl
          | cons d ds =>
              simp only [angleContentAfter]
              rw [if_neg]
              intro hcon
              have : '>' ∈ ds := by simpa using hcon
              exact hr (List.mem_cons_of_mem d this)
        rw [hca]
        exact ih hr
      · rw [if_neg hc]
        exact ih hr

theorem angleContentAfter_none_jsMatch :
    ∀ l : List Char, angleContentAfter l = none → jsMatchAngle l = none := by
  intro l h
  cases l with
  | nil => rfl
  | cons c rest =>
      simp only [angleContentAfter] at h
      by_cases hcon : rest.contains '>'
      · rw [if_pos hcon] at h
        exact absurd h (by simp)
      · have hmem : '>' ∉ rest := by simpa using hcon
        unfold jsMatchAngle
        by_cases hc : c = '<'
        · rw [if_pos hc]
          have hca : angleContentAfter rest = none := by
            cases rest with
            | nil => rfl
            | cons d ds =>
                simp only [angleContentAfter]
                rw [if_neg]
                intro hcon2
                have : '>' ∈ ds := by simpa using hcon2
                exact hmem (List.mem_cons_of_mem d this)
          rw [hca]
          exact jsMatchAngle_gtFree rest hmem
        · rw [if_neg hc]
          exact jsMatchAngle_gtFree rest hmem

/-- The lazy leftmost match of `/<(.+?)>/` is the span after the first
`<` of the string: a failed span at the first `<` (no `>` two or more
characters later) cannot be rescued by any later `<`. -/
theorem jsMatchAngle_eq_firstAngleSpan : ∀ l : List Char, jsMatchAngle l = firstAngleSpan l := by
  intro l
  induction l with
  | nil => rfl
  | cons c rest ih =>
      by_cases hc : c = '<'
      · have hdw : (c :: rest).dropWhile (· ≠ '<') = c :: rest := by
          rw [List.dropWhile_cons, if_neg]
          simp [hc]
        have hL : jsMatchAngle (c :: rest)
            = match angleContentAfter rest with
              | some content => some content
              | none => jsMatchAngle rest := by
          simp only [jsMatchAngle]
          rw [if_pos hc]
        have hR : firstAngleSpan (c :: rest) = angleContentAfter rest := by
          unfold firstAngleSpan
          rw [hdw]
        rw [hL, hR]
        cases hca : angleContentAfter rest with
        | some x => rfl
        | none => exact angleContentAfter_none_jsMatch rest hca
      · have hdw : (c :: rest).dropWhile (· ≠ '<') = rest.dropWhile (· ≠ '<') := by
          rw [List.dropWhile_cons, if_pos]
          simp [hc]
        have hL : jsMatchAngle (c :: rest) = jsMatchAngle rest := by
          simp only [jsMatchAngle]
          rw [if_neg hc]
        have hR : firstAngleSpan (c :: rest) = firstAngleSpan rest := by
          unfold firstAngleSpan
          rw [hdw]
        rw [hL, hR, ih]

/-! Whitespace bookkeeping for the display-name regex. -/

theorem allWs_stripTrailWs_nil {v : List Char} (h : ∀ c ∈ v, c.isWhitespace = true) :
    stripTrailWs v = [] := by
  unfold stripTrailWs
  have : v.reverse.dropWhile Char.isWhitespace = [] :=
    List.dropWhile_eq_nil_iff.mpr (fun x hx => h x (List.mem_reverse.mp hx))
  rw [this]
  rfl

theorem stripTrailWs_append_ws {x w : List Char} (h : ∀ c ∈ w, c.isWhitespace = true) :
    stripTrailWs (x ++ w) = stripTrailWs x := by
  unfold stripTrailWs
  rw [List.reverse_append, List.dropWhile_append]
  have hw : w.reverse.dropWhile Char.isWhitespace = [] :=
    List.dropWhile_eq_nil_iff.mpr (fun c hc => h c (List.mem_reverse.mp hc))
  rw [hw]
  rfl

theorem stripTrailWs_decomp (v : List Char) :
    ∃ w, v = stripTrailWs v ++ w ∧ ∀ c ∈ w, c.isWhitespace = true := by
  refine ⟨(v.reverse.takeWhile Char.isWhitespace).reverse, ?_, ?_⟩
  · unfold stripTrailWs
    rw [← List.reverse_append, List.takeWhile_append_dropWhile, List.reverse_reverse]
  · intro c hc
    exact List.mem_takeWhile_imp (List.mem_reverse.mp hc)

theorem trimL_append_ws {x w : List Char} (h : ∀ c ∈ w, c.isWhitespace = true) :
    trimL (x ++ w) = trimL x := by
  unfold trimL
  rw [List.dropWhile_append]
  by_cases he : (x.dropWhile Char.isWhitespace).isEmpty
  · rw [if_pos he]
    have hx : x.dropWhile Char.isWhitespace = [] := by simpa using he
    have hw : w.dropWhile Char.isWhitespace = [] :=
      List.dropWhile_eq_nil_iff.mpr h
    rw [hx, hw]
  · rw [if_neg he]
    exact stripTrailWs_append_ws h

theorem stripTrailWs_cons {c : Char} {v : List Char}
    (h : ¬(c.isWhitespace = true ∧ ∀ x ∈ v, x.isWhitespace = true)) :
    stripTrailWs (c :: v) = c :: stripTrailWs v := by
  unfold stripTrailWs
  have hrev : (c :: v).reverse = v.reverse ++ [c] := by simp
  rw [hrev, List.dropWhile_append]
  by_cases hv : (v.reverse.dropWhile Char.isWhitespace).isEmpty
  · have hnil : v.reverse.dropWhile Char.isWhitespace = [] := by simpa using hv
    have hall : ∀ x ∈ v, x.isWhitespace = true := by
      intro x hx
      exact List.dropWhile_eq_nil_iff.mp hnil x (List.mem_reverse.mpr hx)
    have hcns : c.isWhitespace = false := by
      cases hcb : c.isWhitespace with
      | false => rfl
      | true => exact absurd ⟨hcb, hall⟩ h
    rw [if_pos hv, hnil]
    rw [List.dropWhile_cons, hcns]
    simp
  · rw [if_neg hv]
    rw [List.reverse_append]
    simp

theorem wsThenLt_takeWhile_ws :
    ∀ l : List Char, wsThenLt l = true → ∀ x ∈ l.takeWhile (· ≠ '<'), x.isWhitespace = true := by
  intro l
  induction l with
  | nil => intro h; simp [wsThenLt] at h
  | cons c rest ih =>
      intro h x hx
      unfold wsThenLt at h
      by_cases hc : c = '<'
      · rw [List.takeWhile_cons] at hx
        simp [hc] at hx
      · rw [if_neg hc] at h
        by_cases hw : c.isWhitespace
        · rw [if_pos hw] at h
          rw [List.takeWhile_cons] at hx
          rw [if_pos (by simp [hc])] at hx
          rcases List.mem_cons.mp hx with rfl | hx
          · exact hw
          · exact ih h x hx
        · rw [if_neg hw] at h
          exact absurd h (by simp)

theorem wsThenLt_false_not_allWs :
    ∀ l : List Char, '<' ∈ l → wsThenLt l = false →
      ¬ ∀ x ∈ l.takeWhile (· ≠ '<'), x.isWhitespace = true := by
  intro l
  induction l with
  | nil => intro h; simp at h
  | cons c rest ih =>
      intro hin h hall
      unfold wsThenLt at h
      by_cases hc : c = '<'
      · rw [if_pos hc] at h
        exact absurd h (by simp)
      · rw [if_neg hc] at h
        have hcw : c ∈ (c :: rest).takeWhile (· ≠ '<') := by
          rw [List.takeWhile_cons, if_pos (by simp [hc])]
          exact List.mem_cons_self c _
        have hcws : c.isWhitespace = true := hall c hcw
        rw [if_pos hcws] at h
        have hin2 : '<' ∈ rest := by
          rcases List.mem_cons.mp hin with h1 | h1
          · exact absurd h1.symm hc
          · exact h1
        refine ih hin2 h ?_
        intro x hx
        refine hall x ?_
        rw [List.takeWhile_cons, if_pos (by simp [hc])]
        exact List.mem_cons_of_mem c hx

theorem wsThenLt_false_of_notMem : ∀ l : List Char, '<' ∉ l → wsThenLt l = false := by
  intro l
  induction l with
  | nil => intro _; rfl
  | cons c rest ih =>
      intro h
      have hc : c ≠ '<' := fun hh => h (hh ▸ List.mem_cons_self c rest)
      have hr : '<' ∉ rest := fun hm => h (List.mem_cons_of_mem c hm)
      unfold wsThenLt
      rw [if_neg hc]
      by_cases hw : c.isWhitespace
      · rw [if_pos hw]
        exact ih hr
      · rw [if_neg hw]

theorem namePrefixGo_none : ∀ (rem acc : List Char), '<' ∉ rem → namePrefixGo acc rem = none := by
  intro rem
  induction rem with
  | nil => intro acc _; rfl
  | cons c rest ih =>
      intro acc h
      unfold namePrefixGo
      rw [if_neg (by simp [wsThenLt_false_of_notMem _ h])]
      exact ih (acc ++ [c]) (fun hm => h (List.mem_cons_of_mem c hm))

theorem namePrefixGo_char : ∀ (rem acc : List Char), '<' ∈ rem →
    namePrefixGo acc rem = some (acc ++ stripTrailWs (rem.takeWhile (· ≠ '<'))) := by
  intro rem
  induction rem with
  | nil => intro acc h; simp at h
  | cons c rest ih =>
      intro acc hin
      unfold namePrefixGo
      by_cases hws : wsThenLt (c :: rest)
      · rw [if_pos (by simpa using hws)]
        rw [allWs_stripTrailWs_nil (wsThenLt_takeWhile_ws _ hws), List.append_nil]
      · rw [if_neg (by simpa using hws)]
        have hc : c ≠ '<' := by
          intro hh
          apply hws
          unfold wsThenLt
          rw [if_pos hh]
        have hin2 : '<' ∈ rest := by
          rcases List.mem_cons.mp hin with h1 | h1
          · exact absurd h1.symm hc
          · exact h1
        rw [ih (acc ++ [c]) hin2]
        have htw : (c :: rest).takeWhile (· ≠ '<') = c :: rest.takeWhile (· ≠ '<') := by
          rw [List.takeWhile_cons, if_pos (by simp [hc])]
        rw [htw]
        have hnot : ¬(c.isWhitespace = true ∧
            ∀ x ∈ rest.takeWhile (· ≠ '<'), x.isWhitespace = true) := by
          rintro ⟨hcw, hall⟩
          have hltf : wsThenLt rest = false := by
            have hstep : wsThenLt (c :: rest) = wsThenLt rest := by
              simp only [wsThenLt]
              rw [if_neg hc, if_pos hcw]
            rw [← hstep]
            simpa using hws
          exact wsThenLt_false_not_allWs rest hin2 hltf hall
        rw [stripTrailWs_cons hnot]
        simp

theorem trimL_cons_stripTrail (c : Char) (v : List Char) :
    trimL (c :: stripTrailWs v) = trimL (c :: v) := by
  obtain ⟨w, hw, hws⟩ := stripTrailWs_decomp v
  conv_rhs => rw [hw]
  rw [show c :: (stripTrailWs v ++ w) = (c :: stripTrailWs v) ++ w from rfl]
  rw [trimL_append_ws hws]

theorem nameContent_eq (c : Char) (rest : List Char) :
    (namePrefixGo [c] rest).map (fun v => String.mk (stripQuotes (trimL v)))
      = (if rest.contains '<' then
           some (String.mk (stripQuotes (trimL (c :: rest.takeWhile (· ≠ '<')))))
         else none) := by
  by_cases hin : '<' ∈ rest
  · rw [namePrefixGo_char rest [c] hin, if_pos (by simpa using hin)]
    show some (String.mk (stripQuotes
        (trimL ([c] ++ stripTrailWs (rest.takeWhile (· ≠ '<'))))))
      = some (String.mk (stripQuotes (trimL (c :: rest.takeWhile (· ≠ '<')))))
    rw [show [c] ++ stripTrailWs (rest.takeWhile (· ≠ '<'))
          = c :: stripTrailWs (rest.takeWhile (· ≠ '<')) from rfl]
    rw [trimL_cons_stripTrail]
  · rw [namePrefixGo_none rest [c] hin, if_neg (by simpa using hin)]
    rfl

/-- Claim C3 counterexample: on the From value `<a<b@c>` the code's name
extraction captures `<a` (the lazy group may contain the leading `<`),
which is not the substring before the first `<` (that substring is
empty), so the claim's display-name sentence fails as stated.  The email
clause agrees on this input (both give `a<b@c`). -/
theorem claim_C3_counterexample :
    extractName "<a<b@c>" = some "<a" ∧
    claimDisplayName "<a<b@c>" = some "" ∧
    extractName "<a<b@c>" ≠ claimDisplayName "<a<b@c>" ∧
    extractEmail "<a<b@c>" = some "a<b@c" := by decide

/-- Claim C3 as amended: the email is the lowercased, trimmed span
between the first `<` and the first `>` lying at least two characters
later (so the span is non-empty); else the trimmed lowercased whole
value when it contains `@`; else none — the background variant omits the
trim on the bracketed span.  The display name is present exactly when
the value has a `<` preceded by at least one character, and equals the
substring before the first such `<`, trimmed and stripped of one
leading/trailing quote character; it is absent for a bare address. -/
theorem claim_C3_amended :
    (∀ s : String, extractEmail s = claimEmail s) ∧
    (∀ s : String, bgExtractEmail s = claimEmailBg s) ∧
    (∀ s : String, extractName s = claimName s) ∧
    extractEmail "John Doe <JOHN@Example.com >" = some "john@example.com" ∧
    extractName "\"John Doe\" <j@e.com>" = some "John Doe" ∧
    extractEmail "A@B.com" = some "a@b.com" ∧
    extractName "a@b.com" = none ∧
    extractEmail "no email here" = none := by
  refine ⟨?_, ?_, ?_, by decide, by decide, by decide, by decide, by decide⟩
  · intro s
    unfold extractEmail claimEmail
    rw [jsMatchAngle_eq_firstAngleSpan]
  · intro s
    unfold bgExtractEmail claimEmailBg
    rw [jsMatchAngle_eq_firstAngleSpan]
  · intro s
    unfold extractName claimName
    cases hl : s.toList with
    | nil => rfl
    | cons c rest => exact nameContent_eq c rest

/-! ## C6: the paginated enumerator -/

/-- Ids of the first `k` provider pages, concatenated in order. -/
def pageIds (pages : List GPage) (k : Nat) : List Nat :=
  ((pages.take k).map GPage.messages).flatten

/-- The number of pages the enumerator consumes, per the spec's
termination rule: stop before requesting anything once the cap is
reached; otherwise stop with the first page that has no continuation
cursor or that brings the accumulated count to the cap; `none` when the
provider pages run out first. -/
def specStopIdx (cap : Nat) : List GPage → Nat → Option Nat
  | [], got => if cap ≤ got then some 0 else none
  | p :: rest, got =>
      if cap ≤ got then some 0
      else if p.nextPageToken = none ∨ cap ≤ got + p.messages.length then some 1
      else (specStopIdx cap rest (got + p.messages.length)).map (· + 1)

/-- The spec's `i`-th request: ask for `min(pageSize, cap − collected)`
items, sending no cursor on the first call and the previous page's
cursor afterwards. -/
def specReqAt (cap : Nat) (tok : Option Nat) (base : Nat) (pages : List GPage) (i : Nat) :
    Nat × Option Nat :=
  (min 100 (cap - (base + (pageIds pages i).length)),
   match i with
   | 0 => tok
   | j + 1 => (pages.get? j).bind GPage.nextPageToken)

/-- The enumerator as the claim describes it: the ids are exactly the
concatenation of the consumed pages, every request asks for
`min(pageSize, remaining cap)` and carries the previous cursor, and one
inter-page delay elapses between consecutive pages. -/
def enumSpec (pages : List GPage) (cap : Nat) : Option EnumResult :=
  (specStopIdx cap pages 0).map (fun k =>
    { ids := pageIds pages k
      reqs := (List.range k).map (specReqAt cap none 0 pages)
      delays := k - 1 })

theorem pageIds_zero (pages : List GPage) : pageIds pages 0 = [] := rfl

theorem pageIds_succ_cons (p : GPage) (rest : List GPage) (k : Nat) :
    pageIds (p :: rest) (k + 1) = p.messages ++ pageIds rest k := by
  simp [pageIds]

theorem specReqAt_zero (cap : Nat) (tok : Option Nat) (base : Nat) (pages : List GPage) :
    specReqAt cap tok base pages 0 = (min 100 (cap - base), tok) := by
  simp [specReqAt, pageIds]

theorem specReqAt_succ (cap : Nat) (tok : Option Nat) (base : Nat) (p : GPage)
    (rest : List GPage) (i : Nat) :
    specReqAt cap tok base (p :: rest) (i + 1)
      = specReqAt cap p.nextPageToken (base + p.messages.length) rest i := by
  unfold specReqAt
  cases i with
  | zero => simp [pageIds_succ_cons, pageIds, Nat.add_assoc]
  | succ j => simp [pageIds_succ_cons, pageIds, Nat.add_assoc]

theorem specStopIdx_pos {cap got : Nat} {pages : List GPage} {k : Nat}
    (hgot : ¬ cap ≤ got) (h : specStopIdx cap pages got = some k) : 1 ≤ k := by
  cases pages with
  | nil =>
      unfold specStopIdx at h
      rw [if_neg hgot] at h
      exact absurd h (by simp)
  | cons p rest =>
      unfold specStopIdx at h
      rw [if_neg hgot] at h
      by_cases hc : p.nextPageToken = none ∨ cap ≤ got + p.messages.length
      · rw [if_pos hc] at h
        injection h with h1
        omega
      · rw [if_neg hc] at h
        cases hs : specStopIdx cap rest (got + p.messages.length) with
        | none => rw [hs] at h; exact absurd h (by simp)
        | some k2 =>
            rw [hs] at h
            simp only [Option.map_some'] at h
            injection h with h1
            omega


/-- The enumerator loop, related to the spec's closed form from an
arbitrary intermediate state. -/
theorem getAllIdsGo_eq (cap : Nat) : ∀ (pages : List GPage) (tok : Option Nat)
    (acc : List Nat) (reqs : List (Nat × Option Nat)) (delays : Nat),
    getAllIdsGo cap pages tok acc reqs delays =
      (specStopIdx cap pages acc.length).map (fun k =>
        { ids := acc ++ pageIds pages k
          reqs := reqs ++ (List.range k).map (specReqAt cap tok acc.length pages)
          delays := delays + (k - 1) }) := by
  intro pages
  induction pages with
  | nil =>
      intro tok acc reqs delays
      unfold getAllIdsGo specStopIdx
      by_cases h1 : cap ≤ acc.length
      · rw [if_pos h1, if_pos h1]
        simp [pageIds]
      · rw [if_neg h1, if_neg h1]
        rfl
  | cons p rest ih =>
      intro tok acc reqs delays
      unfold getAllIdsGo specStopIdx
      by_cases h1 : cap ≤ acc.length
      · rw [if_pos h1, if_pos h1]
        simp [pageIds]
      · rw [if_neg h1, if_neg h1]
        split
        · rename_i heq
          rw [if_pos (Or.inl heq)]
          simp only [Option.map_some']
          rw [show List.range 1 = [0] from rfl]
          simp [pageIds_succ_cons, pageIds, specReqAt_zero]
        · rename_i t heq
          by_cases h2 : cap ≤ (acc ++ p.messages).length
          · have h2' : cap ≤ acc.length + p.messages.length := by
              simpa [List.length_append] using h2
            rw [if_pos h2, if_pos (Or.inr h2')]
            simp only [Option.map_some']
            rw [show List.range 1 = [0] from rfl]
            simp [pageIds_succ_cons, pageIds, specReqAt_zero]
          · have h2' : ¬ cap ≤ acc.length + p.messages.length := by
              intro hcon
              exact h2 (by simpa [List.length_append] using hcon)
            rw [if_neg h2,
                if_neg (by
                  rintro (hcon | hcon)
                  · rw [heq] at hcon
                    exact absurd hcon (by simp)
                  · exact h2' hcon)]
            rw [ih (some t) (acc ++ p.messages)
                  (reqs ++ [(min 100 (cap - acc.length), tok)]) (delays + 1)]
            have hlen : (acc ++ p.messages).length = acc.length + p.messages.length :=
              List.length_append acc p.messages
            rw [hlen]
            cases hks : specStopIdx cap rest (acc.length + p.messages.length) with
            | none => rfl
            | some k2 =>
                have hk2 : 1 ≤ k2 := specStopIdx_pos h2' hks
                simp only [Option.map_some']
                congr 1
                have hrange : (List.range (k2 + 1)).map
                      (specReqAt cap tok acc.length (p :: rest))
                    = (min 100 (cap - acc.length), tok)
                      :: (List.range k2).map
                          (specReqAt cap (some t) (acc.length + p.messages.length) rest) := by
                  rw [List.range_succ_eq_map, List.map_cons, List.map_map, specReqAt_zero]
                  congr 1
                  refine List.map_congr_left ?_
                  intro i _
                  show specReqAt cap tok acc.length (p :: rest) (i + 1) = _
                  rw [specReqAt_succ, heq]
                rw [pageIds_succ_cons, hrange]
                simp only [EnumResult.mk.injEq]
                refine ⟨by simp [List.append_assoc], by simp, by omega⟩

set_option maxRecDepth 8000 in
/-- Claim C6: the enumerator requests `min(pageSize = 100, remaining
cap)` items per call, sends no cursor on the first call and the previous
page's cursor afterwards, collects exactly the consumed pages' ids, and
terminates exactly when a page has no cursor or the accumulated count
reaches the cap (with one inter-page delay between consecutive pages) —
stated as equality with the spec-worded enumerator `enumSpec`, plus the
concrete 250/100-100-50 scenario: exactly 250 ids, request sizes
100/100/50, two inter-page delays. -/
theorem claim_C6 :
    (∀ (pages : List GPage) (cap : Nat), getAllMessageIds pages cap = enumSpec pages cap) ∧
    getAllMessageIds
        [⟨List.range 100, some 1⟩, ⟨(List.range 100).map (· + 100), some 2⟩,
         ⟨(List.range 50).map (· + 200), none⟩] 250
      = some ⟨List.range 250, [(100, none), (100, some 1), (50, some 2)], 2⟩ := by
  constructor
  · intro pages cap
    show getAllIdsGo cap pages none [] [] 0 = enumSpec pages cap
    rw [getAllIdsGo_eq]
    unfold enumSpec
    rw [show specStopIdx cap pages ([] : List Nat).length = specStopIdx cap pages 0 from rfl]
    cases hk : specStopIdx cap pages 0 with
    | none => rfl
    | some k =>
        simp only [Option.map_some']
        simp
  · unfold getAllMessageIds
    decide
